import Mathlib

/-!
Verification of the scalarized Upper-Confidence-Bound acquisition functions
defined in the tutorial notebook `tutorials/custom_acquisition.ipynb`
(`ScalarizedUpperConfidenceBound` and `qScalarizedUpperConfidenceBound`).

Real numbers stand for floating-point tensor entries.  An operation that
would produce an invalid floating-point value — square root of a negative
number, which yields NaN in the tensor library, or a raised shape error —
is modelled as returning `none`.
-/

open scoped BigOperators

/-- Dot product of an outcome vector with the weight vector, as computed by
`x.matmul(self.weights)` in the notebook.  The same matmul scalarizes the
posterior mean (`means.matmul(self.weights)`, `mean.matmul(self.weights)`)
and the Monte-Carlo samples (`samples.matmul(self.weights)`). -/
def scalarizedMean {o : ℕ} (x w : Fin o → ℝ) : ℝ := ∑ i, x i * w i

/-- The quadratic form `wᵀ (Σ w)` computed by
`torch.bmm(weights_transpose, torch.bmm(covs, weights))` in
`ScalarizedUpperConfidenceBound.forward`. -/
def scalarizedVariance {o : ℕ} (w : Fin o → ℝ) (cov : Fin o → Fin o → ℝ) : ℝ :=
  ∑ i, w i * (∑ j, cov i j * w j)

/-- Positive semi-definiteness of a covariance matrix, phrased through the
quadratic form the scorer computes: every weight vector gets a nonnegative
scalarized variance. -/
def PSDcov {o : ℕ} (cov : Fin o → Fin o → ℝ) : Prop :=
  ∀ w : Fin o → ℝ, 0 ≤ scalarizedVariance w cov

/-- Square root as computed on floating-point data: the exact square root
for nonnegative arguments, `none` (NaN / domain error) for negative ones.
The tensor `sqrt` in the notebook performs no clamping of its argument. -/
noncomputable def sqrt? (x : ℝ) : Option ℝ :=
  if 0 ≤ x then some (Real.sqrt x) else none

/-- Analytic posterior for one t-batch: the mean vector over the `o`
outcomes (`posterior.mean.squeeze(dim=-2)`, with `q = 1`) and the `o × o`
covariance matrix (`posterior.covariance_matrix`). -/
structure Posterior (o : ℕ) where
  mean : Fin o → ℝ
  cov : Fin o → Fin o → ℝ

/-- State of a `ScalarizedUpperConfidenceBound` instance: the registered
buffers `beta` and `weights` and the `maximize` flag set in `__init__`. -/
structure SUCB (o : ℕ) where
  beta : ℝ
  weights : Fin o → ℝ
  maximize : Bool

/-- Body of `ScalarizedUpperConfidenceBound.forward` for one t-batch:
`scalarized_mean = means.matmul(self.weights)`,
`scalarized_variance = bmm(wᵀ, bmm(covs, w))`,
`delta = (self.beta * scalarized_variance).sqrt()`, and the result is
`scalarized_mean + delta` if `self.maximize` else `scalarized_mean - delta`.
A NaN `delta` (negative argument under the square root) is `none`. -/
noncomputable def SUCB.forward1 {o : ℕ} (acqf : SUCB o) (p : Posterior o) : Option ℝ :=
  (sqrt? (acqf.beta * scalarizedVariance acqf.weights p.cov)).map (fun delta =>
    if acqf.maximize then scalarizedMean p.mean acqf.weights + delta
    else scalarizedMean p.mean acqf.weights - delta)

/-- `ScalarizedUpperConfidenceBound.forward` over a batch of t-batches:
the per-t-batch computation applied across the batch dimension `b`. -/
noncomputable def SUCB.forward {o : ℕ} (acqf : SUCB o) (batch : List (Posterior o)) :
    List (Option ℝ) :=
  batch.map acqf.forward1

/-- Weight vector `[0.5, 0.5]` of the concrete scenario. -/
noncomputable def wC9 : Fin 2 → ℝ := fun _ => 1 / 2

/-- Posterior mean `[1.0, 3.0]` of the concrete scenario. -/
def meanC9 : Fin 2 → ℝ := fun i => if i = 0 then 1 else 3

/-- Covariance `diag(4, 1)` of the concrete scenario. -/
def covC9 : Fin 2 → Fin 2 → ℝ := fun i j =>
  if i = j then (if i = 0 then 4 else 1) else 0

/-- C9: with `o = 2`, `weights = [0.5, 0.5]`, `mean = [1, 3]`,
`cov = diag(4, 1)`, `beta = 4`, `maximize = true`, the analytic scorer
computes scalar mean `2`, scalarized variance `5/4`, and returns
`2 + √5`. -/
theorem analytic_concrete_score :
    scalarizedMean meanC9 wC9 = 2 ∧
    scalarizedVariance wC9 covC9 = 5 / 4 ∧
    (SUCB.mk 4 wC9 true).forward1 ⟨meanC9, covC9⟩ = some (2 + Real.sqrt 5) := by
  have hm : scalarizedMean meanC9 wC9 = 2 := by
    norm_num [scalarizedMean, wC9, meanC9, Fin.sum_univ_two]
  have hv : scalarizedVariance wC9 covC9 = 5 / 4 := by
    norm_num [scalarizedVariance, wC9, covC9, Fin.sum_univ_two]
  have h5 : (4 : ℝ) * scalarizedVariance wC9 covC9 = 5 := by
    rw [hv]
    norm_num
  refine ⟨hm, hv, ?_⟩
  norm_num [SUCB.forward1, h5, sqrt?, hm]

/-- Under the data-model invariants (nonnegative `beta`, PSD covariance)
the square root in the analytic scorer is defined. -/
theorem sqrt?_of_nonneg {x : ℝ} (h : 0 ≤ x) : sqrt? x = some (Real.sqrt x) := by
  simp [sqrt?, h]

/-- C1: per t-batch, the analytic `forward` returns
`w · mean + √(beta · wᵀ Σ w)` when maximizing and
`w · mean - √(beta · wᵀ Σ w)` when minimizing, with `mean`, `Σ` the
posterior moments of that t-batch (`beta ≥ 0`, PSD covariance). -/
theorem analytic_forward_formula {o : ℕ} (acqf : SUCB o) (hb : 0 ≤ acqf.beta)
    (batch : List (Posterior o)) (hpsd : ∀ p ∈ batch, PSDcov p.cov)
    (i : ℕ) (hi : i < batch.length) :
    (acqf.forward batch).get ⟨i, by simpa [SUCB.forward] using hi⟩ =
      some (if acqf.maximize then
          scalarizedMean (batch.get ⟨i, hi⟩).mean acqf.weights
            + Real.sqrt (acqf.beta * scalarizedVariance acqf.weights (batch.get ⟨i, hi⟩).cov)
        else
          scalarizedMean (batch.get ⟨i, hi⟩).mean acqf.weights
            - Real.sqrt (acqf.beta * scalarizedVariance acqf.weights (batch.get ⟨i, hi⟩).cov)) := by
  have hmem : batch[i] ∈ batch := List.getElem_mem hi
  have hnn : 0 ≤ acqf.beta * scalarizedVariance acqf.weights batch[i].cov :=
    mul_nonneg hb (hpsd _ hmem acqf.weights)
  simp [SUCB.forward, SUCB.forward1, sqrt?_of_nonneg hnn]

/-- Example weight vector `[2]` (one outcome). -/
def wEx1 : Fin 1 → ℝ := fun _ => 2

/-- Example posterior mean `[3]` (one outcome). -/
def meanEx1 : Fin 1 → ℝ := fun _ => 3

/-- Example covariance `[[1]]` (one outcome). -/
def covEx1 : Fin 1 → Fin 1 → ℝ := fun _ _ => 1

theorem covEx1_psd : PSDcov covEx1 := by
  intro w
  simp only [scalarizedVariance, covEx1, Fin.sum_univ_one, one_mul]
  exact mul_self_nonneg _

/-- Witness for C1 at `beta = 1`, `w = [2]`, `mean = [3]`, `cov = [[1]]`:
the score is `6 + √4 = 8`. -/
theorem analytic_forward_formula_witness :
    (0 : ℝ) ≤ (SUCB.mk 1 wEx1 true).beta ∧
    ((SUCB.mk 1 wEx1 true).forward [⟨meanEx1, covEx1⟩]).get ⟨0, by simp [SUCB.forward]⟩ =
      some 8 := by
  refine ⟨by norm_num, ?_⟩
  have h := analytic_forward_formula (SUCB.mk 1 wEx1 true) (by norm_num)
    [⟨meanEx1, covEx1⟩] (by simpa using covEx1_psd) 0 (by simp)
  rw [h]
  have hm : scalarizedMean meanEx1 wEx1 = 6 := by
    norm_num [scalarizedMean, meanEx1, wEx1, Fin.sum_univ_one]
  have hv : scalarizedVariance wEx1 covEx1 = 4 := by
    norm_num [scalarizedVariance, wEx1, covEx1, Fin.sum_univ_one]
  have hs : Real.sqrt 4 = 2 := by
    rw [show (4 : ℝ) = 2 ^ 2 by norm_num, Real.sqrt_sq (by norm_num : (0:ℝ) ≤ 2)]
  norm_num [hm, hv, hs]

/-- C6: when `beta = 0` the analytic score is exactly the scalarized
posterior mean, in both maximize and minimize mode. -/
theorem beta_zero_score {o : ℕ} (acqf : SUCB o) (hb : acqf.beta = 0)
    (p : Posterior o) (_hpsd : PSDcov p.cov) :
    acqf.forward1 p = some (scalarizedMean p.mean acqf.weights) := by
  simp [SUCB.forward1, sqrt?, hb]

/-- Witness for C6 at `w = [2]`, `mean = [3]`, `cov = [[1]]`, `beta = 0`:
both modes return the scalarized mean `6`. -/
theorem beta_zero_score_witness :
    (SUCB.mk 0 wEx1 true).beta = 0 ∧
    (SUCB.mk 0 wEx1 false).forward1 ⟨meanEx1, covEx1⟩ = some 6 := by
  refine ⟨rfl, ?_⟩
  have h := beta_zero_score (SUCB.mk 0 wEx1 false) rfl ⟨meanEx1, covEx1⟩ covEx1_psd
  rw [h]
  norm_num [scalarizedMean, meanEx1, wEx1, Fin.sum_univ_one]

/-- C7: holding mean, covariance and weights fixed, the analytic score is
monotone in `beta`: for `0 ≤ beta1 ≤ beta2` the maximize-mode score at
`beta2` is at least the score at `beta1`, and the minimize-mode score at
`beta2` is at most the score at `beta1`. -/
theorem score_monotone_in_beta {o : ℕ} (w mean : Fin o → ℝ)
    (cov : Fin o → Fin o → ℝ) (hpsd : PSDcov cov) (b1 b2 : ℝ)
    (hb1 : 0 ≤ b1) (h12 : b1 ≤ b2) :
    ∃ rmax1 rmax2 rmin1 rmin2,
      (SUCB.mk b1 w true).forward1 ⟨mean, cov⟩ = some rmax1 ∧
      (SUCB.mk b2 w true).forward1 ⟨mean, cov⟩ = some rmax2 ∧
      (SUCB.mk b1 w false).forward1 ⟨mean, cov⟩ = some rmin1 ∧
      (SUCB.mk b2 w false).forward1 ⟨mean, cov⟩ = some rmin2 ∧
      rmax1 ≤ rmax2 ∧ rmin2 ≤ rmin1 := by
  have hv : 0 ≤ scalarizedVariance w cov := hpsd w
  have h1 : 0 ≤ b1 * scalarizedVariance w cov := mul_nonneg hb1 hv
  have h2 : 0 ≤ b2 * scalarizedVariance w cov := mul_nonneg (hb1.trans h12) hv
  have hs : Real.sqrt (b1 * scalarizedVariance w cov)
      ≤ Real.sqrt (b2 * scalarizedVariance w cov) :=
    Real.sqrt_le_sqrt (mul_le_mul_of_nonneg_right h12 hv)
  refine ⟨scalarizedMean mean w + Real.sqrt (b1 * scalarizedVariance w cov),
      scalarizedMean mean w + Real.sqrt (b2 * scalarizedVariance w cov),
      scalarizedMean mean w - Real.sqrt (b1 * scalarizedVariance w cov),
      scalarizedMean mean w - Real.sqrt (b2 * scalarizedVariance w cov),
      ?_, ?_, ?_, ?_, ?_, ?_⟩
  · simp [SUCB.forward1, sqrt?_of_nonneg h1]
  · simp [SUCB.forward1, sqrt?_of_nonneg h2]
  · simp [SUCB.forward1, sqrt?_of_nonneg h1]
  · simp [SUCB.forward1, sqrt?_of_nonneg h2]
  · exact add_le_add_left hs _
  · exact sub_le_sub_left hs _

/-- Witness for C7 at `w = [2]`, `mean = [3]`, `cov = [[1]]`, `beta1 = 1`,
`beta2 = 4`. -/
theorem score_monotone_in_beta_witness :
    (0 : ℝ) ≤ 1 ∧ (1 : ℝ) ≤ 4 ∧
    (∃ rmax1 rmax2 rmin1 rmin2,
      (SUCB.mk 1 wEx1 true).forward1 ⟨meanEx1, covEx1⟩ = some rmax1 ∧
      (SUCB.mk 4 wEx1 true).forward1 ⟨meanEx1, covEx1⟩ = some rmax2 ∧
      (SUCB.mk 1 wEx1 false).forward1 ⟨meanEx1, covEx1⟩ = some rmin1 ∧
      (SUCB.mk 4 wEx1 false).forward1 ⟨meanEx1, covEx1⟩ = some rmin2 ∧
      rmax1 ≤ rmax2 ∧ rmin2 ≤ rmin1) :=
  ⟨by norm_num, by norm_num,
    score_monotone_in_beta wEx1 meanEx1 covEx1 covEx1_psd 1 4 (by norm_num) (by norm_num)⟩

/-- The one-hot weight vector `e_i`. -/
def oneHot {o : ℕ} (i : Fin o) : Fin o → ℝ := fun j => if j = i then 1 else 0

/-- C8: with the one-hot weight vector `e_i` and `beta ≥ 0`, the analytic
maximize-mode score is the single-output UCB value
`mean_i + √beta · √(cov_ii)`. -/
theorem one_hot_single_output_ucb {o : ℕ} (i : Fin o) (mean : Fin o → ℝ)
    (cov : Fin o → Fin o → ℝ) (hpsd : PSDcov cov) (beta : ℝ) (hb : 0 ≤ beta) :
    (SUCB.mk beta (oneHot i) true).forward1 ⟨mean, cov⟩ =
      some (mean i + Real.sqrt beta * Real.sqrt (cov i i)) := by
  have hm : scalarizedMean mean (oneHot i) = mean i := by
    simp [scalarizedMean, oneHot]
  have hv : scalarizedVariance (oneHot i) cov = cov i i := by
    simp [scalarizedVariance, oneHot]
  have hcii : 0 ≤ cov i i := by
    have h := hpsd (oneHot i)
    rwa [hv] at h
  have hnn : 0 ≤ beta * cov i i := mul_nonneg hb hcii
  simp [SUCB.forward1, hv, hm, sqrt?_of_nonneg, hnn, Real.sqrt_mul hb]

/-- Witness for C8 at `o = 1`, `i = 0`, `mean = [3]`, `cov = [[1]]`,
`beta = 4`. -/
theorem one_hot_single_output_ucb_witness :
    (0 : ℝ) ≤ 4 ∧
    (SUCB.mk 4 (oneHot (0 : Fin 1)) true).forward1 ⟨meanEx1, covEx1⟩ =
      some (meanEx1 0 + Real.sqrt 4 * Real.sqrt (covEx1 0 0)) :=
  ⟨by norm_num,
    one_hot_single_output_ucb (0 : Fin 1) meanEx1 covEx1 covEx1_psd 4 (by norm_num)⟩

/-- Weight vector `[1]` for the negative-variance scenario. -/
def wNeg : Fin 1 → ℝ := fun _ => 1

/-- Posterior mean `[0]` for the negative-variance scenario. -/
def meanNeg : Fin 1 → ℝ := fun _ => 0

/-- Numerically-broken "covariance" `[[-1]]`: the scalarized variance at
`w = [1]` is `-1 < 0`. -/
def covNeg : Fin 1 → Fin 1 → ℝ := fun _ _ => -1

/-- Counterexample to C3: at `beta = 1`, `w = [1]`, `mean = [0]`,
`cov = [[-1]]` the scalarized variance is `-1`; no clamping happens, the
square root of the negative product is NaN (`none`), and the score is NOT
the scalarized mean `0`. -/
theorem no_variance_clamp_counterexample :
    scalarizedVariance wNeg covNeg = -1 ∧
    (SUCB.mk 1 wNeg true).forward1 ⟨meanNeg, covNeg⟩ = none ∧
    (SUCB.mk 1 wNeg true).forward1 ⟨meanNeg, covNeg⟩ ≠
      some (scalarizedMean meanNeg wNeg) := by
  have hv : scalarizedVariance wNeg covNeg = -1 := by
    norm_num [scalarizedVariance, wNeg, covNeg, Fin.sum_univ_one]
  have hnone : (SUCB.mk 1 wNeg true).forward1 ⟨meanNeg, covNeg⟩ = none := by
    norm_num [SUCB.forward1, sqrt?, hv]
  refine ⟨hv, hnone, ?_⟩
  rw [hnone]
  simp

/-- C3 amended: when `beta · wᵀ Σ w` is negative, the analytic scorer does
not clamp it; the square root makes the result NaN (`none`) instead of the
scalarized mean. -/
theorem negative_variance_gives_nan {o : ℕ} (acqf : SUCB o) (p : Posterior o)
    (h : acqf.beta * scalarizedVariance acqf.weights p.cov < 0) :
    acqf.forward1 p = none := by
  simp [SUCB.forward1, sqrt?, not_le.mpr h]

/-- Witness for the amended C3 at `beta = 2`, `w = [1]`, `cov = [[-1]]`. -/
theorem negative_variance_gives_nan_witness :
    (SUCB.mk 2 wNeg true).beta * scalarizedVariance wNeg covNeg < 0 ∧
    (SUCB.mk 2 wNeg true).forward1 ⟨meanNeg, covNeg⟩ = none := by
  have h : (SUCB.mk 2 wNeg true).beta * scalarizedVariance wNeg covNeg < 0 := by
    norm_num [scalarizedVariance, wNeg, covNeg, Fin.sum_univ_one]
  exact ⟨h, negative_variance_gives_nan (SUCB.mk 2 wNeg true) ⟨meanNeg, covNeg⟩ h⟩

/-- `ScalarizedUpperConfidenceBound.forward` with the instance state made
explicit.  The only assignment to the instance is
`self.beta = self.beta.to(X)`, which re-registers the `beta` buffer
converted to the dtype and device of `X`; in the real-valued model this
conversion preserves the stored value.  `weights` and `maximize` are never
assigned.  The pair returned is the state after the call and the scores. -/
noncomputable def SUCB.forwardS {o : ℕ} (acqf : SUCB o) (batch : List (Posterior o)) :
    SUCB o × List (Option ℝ) :=
  let acqf2 : SUCB o := { acqf with beta := acqf.beta }
  (acqf2, acqf2.forward batch)

/-- C5: the analytic `forward` has no side effects: the stored state
(`beta`, `weights`, `maximize`) is unchanged by the call, and the output
is the pure function `SUCB.forward` of the stored state and the inputs. -/
theorem forward_no_side_effects {o : ℕ} (acqf : SUCB o) (batch : List (Posterior o)) :
    (acqf.forwardS batch).1 = acqf ∧
    (acqf.forwardS batch).2 = acqf.forward batch :=
  ⟨rfl, rfl⟩

/-- State of a `qScalarizedUpperConfidenceBound` instance: the registered
buffers `beta` and `weights`. -/
structure QSUCB (o : ℕ) where
  beta : ℝ
  weights : Fin o → ℝ

/-- Body of `qScalarizedUpperConfidenceBound.forward` for one t-batch,
with `n + 1` Monte-Carlo draws over `q + 1` design points (the sampler
produces at least one draw; a `max` over an empty `q` dimension would be
an error in the tensor library):
`scalarized_samples = samples.matmul(self.weights)`,
`scalarized_mean = mean.matmul(self.weights)`,
`ucb_samples = scalarized_mean + math.sqrt(self.beta * math.pi / 2) *
(scalarized_samples - scalarized_mean).abs()`, and the result is
`ucb_samples.max(dim=-1)[0].mean(dim=0)`: the max over the `q` dimension
averaged over the draws.  `math.sqrt` applied to a negative argument
(negative `beta`) raises, modelled as `none`. -/
noncomputable def QSUCB.forward1 {o n q : ℕ} (acqf : QSUCB o)
    (samples : Fin (n + 1) → Fin (q + 1) → Fin o → ℝ)
    (mean : Fin (q + 1) → Fin o → ℝ) : Option ℝ :=
  (sqrt? (acqf.beta * Real.pi / 2)).map (fun c =>
    (∑ k : Fin (n + 1), Finset.univ.sup' Finset.univ_nonempty (fun j : Fin (q + 1) =>
        scalarizedMean (mean j) acqf.weights
          + c * |scalarizedMean (samples k j) acqf.weights
                  - scalarizedMean (mean j) acqf.weights|))
      / (n + 1))

/-- C2: for `beta ≥ 0` the MC scorer returns, per t-batch, the arithmetic
mean over the draws of the max over the `q` points of
`scalarized_mean + √(beta·π/2) · |scalarized_sample − scalarized_mean|`,
where scalarization is the dot product with the stored weights. -/
theorem mc_forward_formula {o n q : ℕ} (acqf : QSUCB o) (hb : 0 ≤ acqf.beta)
    (samples : Fin (n + 1) → Fin (q + 1) → Fin o → ℝ)
    (mean : Fin (q + 1) → Fin o → ℝ) :
    acqf.forward1 samples mean =
      some ((∑ k : Fin (n + 1), Finset.univ.sup' Finset.univ_nonempty
          (fun j : Fin (q + 1) =>
            scalarizedMean (mean j) acqf.weights
              + Real.sqrt (acqf.beta * Real.pi / 2)
                * |scalarizedMean (samples k j) acqf.weights
                    - scalarizedMean (mean j) acqf.weights|))
        / (n + 1)) := by
  have hcnn : 0 ≤ acqf.beta * Real.pi / 2 :=
    div_nonneg (mul_nonneg hb Real.pi_pos.le) (by norm_num)
  rw [QSUCB.forward1, sqrt?_of_nonneg hcnn]
  rfl

/-- Posterior mean `[[3]]` (one point, one outcome) for the MC witness. -/
def meanQ1 : Fin 1 → Fin 1 → ℝ := fun _ _ => 3

/-- Samples `[[[5]]]` (one draw, one point, one outcome) for the MC
witness. -/
def samplesQ1 : Fin 1 → Fin 1 → Fin 1 → ℝ := fun _ _ _ => 5

/-- Witness for C2 at `beta = 0`, `w = [1]`, one draw `[5]`, mean `[3]`:
the deviation factor is `√0 = 0` and the score is `3`. -/
theorem mc_forward_formula_witness :
    (0 : ℝ) ≤ (QSUCB.mk 0 wNeg).beta ∧
    (QSUCB.mk 0 wNeg).forward1 samplesQ1 meanQ1 = some 3 := by
  refine ⟨le_refl 0, ?_⟩
  have h := mc_forward_formula (QSUCB.mk 0 wNeg) (le_refl 0) samplesQ1 meanQ1
  rw [h]
  norm_num [scalarizedMean, wNeg, meanQ1, samplesQ1, Fin.sum_univ_one]

/-- C10: for `beta ≥ 0` the MC score of a t-batch is at least the maximum
over the `q` points of the scalarized posterior mean, and when `beta = 0`
it equals that maximum exactly, independently of the drawn samples. -/
theorem mc_score_lower_bound {o n q : ℕ} (acqf : QSUCB o) (hb : 0 ≤ acqf.beta)
    (samples : Fin (n + 1) → Fin (q + 1) → Fin o → ℝ)
    (mean : Fin (q + 1) → Fin o → ℝ) :
    ∃ r, acqf.forward1 samples mean = some r ∧
      Finset.univ.sup' Finset.univ_nonempty
        (fun j : Fin (q + 1) => scalarizedMean (mean j) acqf.weights) ≤ r ∧
      (acqf.beta = 0 →
        r = Finset.univ.sup' Finset.univ_nonempty
          (fun j : Fin (q + 1) => scalarizedMean (mean j) acqf.weights)) := by
  have hcnn : 0 ≤ acqf.beta * Real.pi / 2 :=
    div_nonneg (mul_nonneg hb Real.pi_pos.le) (by norm_num)
  have hc0 : 0 ≤ Real.sqrt (acqf.beta * Real.pi / 2) := Real.sqrt_nonneg _
  set c : ℝ := Real.sqrt (acqf.beta * Real.pi / 2) with hc
  set M : ℝ := Finset.univ.sup' Finset.univ_nonempty
    (fun j : Fin (q + 1) => scalarizedMean (mean j) acqf.weights) with hM
  set best : Fin (n + 1) → ℝ := fun k =>
    Finset.univ.sup' Finset.univ_nonempty (fun j : Fin (q + 1) =>
      scalarizedMean (mean j) acqf.weights
        + c * |scalarizedMean (samples k j) acqf.weights
                - scalarizedMean (mean j) acqf.weights|) with hbest
  have hlow : ∀ k, M ≤ best k := by
    intro k
    refine Finset.sup'_le _ _ (fun j _ => ?_)
    calc scalarizedMean (mean j) acqf.weights
        ≤ scalarizedMean (mean j) acqf.weights
            + c * |scalarizedMean (samples k j) acqf.weights
                    - scalarizedMean (mean j) acqf.weights| :=
          le_add_of_nonneg_right (mul_nonneg hc0 (abs_nonneg _))
      _ ≤ best k := by
          simp only [hbest]
          exact Finset.le_sup' (fun j : Fin (q + 1) =>
            scalarizedMean (mean j) acqf.weights
              + c * |scalarizedMean (samples k j) acqf.weights
                      - scalarizedMean (mean j) acqf.weights|) (Finset.mem_univ j)
  have hpos : (0 : ℝ) < (n : ℝ) + 1 := by positivity
  have hfwd : acqf.forward1 samples mean = some ((∑ k, best k) / ((n : ℝ) + 1)) := by
    rw [QSUCB.forward1, sqrt?_of_nonneg hcnn]
    rfl
  refine ⟨(∑ k, best k) / ((n : ℝ) + 1), hfwd, ?_, ?_⟩
  · rw [le_div_iff₀ hpos]
    calc M * ((n : ℝ) + 1) = ∑ _k : Fin (n + 1), M := by
          rw [Finset.sum_const, Finset.card_univ, Fintype.card_fin, nsmul_eq_mul]
          push_cast
          ring
      _ ≤ ∑ k, best k := Finset.sum_le_sum (fun k _ => hlow k)
  · intro h0
    have hcz : c = 0 := by
      rw [hc, h0]
      simp
    have hbM : ∀ k, best k = M := by
      intro k
      rw [hbest, hM]
      refine Finset.sup'_congr _ rfl (fun j _ => ?_)
      rw [hcz]
      ring
    rw [Finset.sum_congr rfl (fun k _ => hbM k), Finset.sum_const, Finset.card_univ,
      Fintype.card_fin, nsmul_eq_mul]
    push_cast
    field_simp

/-- Witness for C10 at `beta = 1`, `w = [1]`, one draw `[5]`, mean `[3]`. -/
theorem mc_score_lower_bound_witness :
    (0 : ℝ) ≤ (QSUCB.mk 1 wNeg).beta ∧
    (∃ r, (QSUCB.mk 1 wNeg).forward1 samplesQ1 meanQ1 = some r ∧
      Finset.univ.sup' Finset.univ_nonempty
        (fun j : Fin 1 => scalarizedMean (meanQ1 j) (QSUCB.mk 1 wNeg).weights) ≤ r ∧
      ((QSUCB.mk 1 wNeg).beta = 0 →
        r = Finset.univ.sup' Finset.univ_nonempty
          (fun j : Fin 1 => scalarizedMean (meanQ1 j) (QSUCB.mk 1 wNeg).weights))) :=
  ⟨by norm_num, mc_score_lower_bound (QSUCB.mk 1 wNeg) (by norm_num) samplesQ1 meanQ1⟩

/-- One internal step of `ScalarizedUpperConfidenceBound.forward`, in the
order the statements execute in the source. -/
inductive EvalStep where
  | betaTo : EvalStep
  | posteriorEval : EvalStep
  | scalarizeMean : EvalStep
  | scalarizeVariance : EvalStep
  | sqrtDelta : EvalStep
  deriving DecidableEq

/-- Dot product of two lists: `matmul` raises a shape error (`none`) when
the dimensions disagree, otherwise contracts the shared dimension. -/
def dotL (xs ys : List ℝ) : Option ℝ :=
  if xs.length = ys.length then some (((xs.zip ys).map (fun p => p.1 * p.2)).sum)
  else none

/-- Quadratic form `wᵀ (Σ w)` on list-shaped data, via the two `bmm`
calls; a shape error (`none`) when the dimensions disagree. -/
def quadL (cov : List (List ℝ)) (w : List ℝ) : Option ℝ :=
  if cov.length = w.length ∧ ∀ row ∈ cov, row.length = w.length then
    some ((((cov.map (fun row => ((row.zip w).map (fun p => p.1 * p.2)).sum)).zip w).map
      (fun p => p.1 * p.2)).sum)
  else none

/-- Analytic posterior with explicit, unchecked list shapes. -/
structure ListPosterior where
  mean : List ℝ
  cov : List (List ℝ)

/-- `ScalarizedUpperConfidenceBound` state with a list-shaped weight
vector, so that a weights/outcome-count mismatch is representable. -/
structure SUCBL where
  beta : ℝ
  weights : List ℝ
  maximize : Bool

/-- `ScalarizedUpperConfidenceBound.forward` for one t-batch with the
execution recorded step by step, in source order:
`self.beta = self.beta.to(X)`; `posterior = self.model.posterior(X)` and
`means = posterior.mean.squeeze(dim=-2)`;
`scalarized_mean = means.matmul(self.weights)` — the first point at which
a weights/outcome-count mismatch can surface, as a shape error raised by
`matmul`; the covariance quadratic form via `bmm`; the square root.
Returns the steps that completed together with the result (`none` when an
error was raised or the delta is NaN). -/
noncomputable def SUCBL.forwardT (acqf : SUCBL) {α : Type} (model : α → ListPosterior)
    (x : α) : List EvalStep × Option ℝ :=
  let post := model x
  match dotL post.mean acqf.weights with
  | none => ([EvalStep.betaTo, EvalStep.posteriorEval], none)
  | some m =>
    match quadL post.cov acqf.weights with
    | none => ([EvalStep.betaTo, EvalStep.posteriorEval, EvalStep.scalarizeMean], none)
    | some v =>
      match sqrt? (acqf.beta * v) with
      | none => ([EvalStep.betaTo, EvalStep.posteriorEval, EvalStep.scalarizeMean,
          EvalStep.scalarizeVariance], none)
      | some delta =>
        ([EvalStep.betaTo, EvalStep.posteriorEval, EvalStep.scalarizeMean,
          EvalStep.scalarizeVariance, EvalStep.sqrtDelta],
         some (if acqf.maximize then m + delta else m - delta))

/-- Counterexample to C4: with weights of length 2 and a single-outcome
posterior `mean = [0]`, the call does error (`none` result), but the
posterior evaluation has already been carried out when it does — there is
no fail-fast validation before the computation. -/
theorem no_fail_fast_counterexample :
    ListPosterior.mean (ListPosterior.mk [0] [[1]]) ≠ [] ∧
    ((SUCBL.mk 1 [1, 1] true).forwardT (fun _ : Unit => ListPosterior.mk [0] [[1]]) ()).2
      = none ∧
    EvalStep.posteriorEval ∈
      ((SUCBL.mk 1 [1, 1] true).forwardT (fun _ : Unit => ListPosterior.mk [0] [[1]]) ()).1 := by
  refine ⟨by simp, ?_, ?_⟩ <;>
    simp [SUCBL.forwardT, dotL]

/-- C4 amended: a weights/outcome-count mismatch is not checked up front.
The posterior is evaluated first; the mismatch then surfaces as a shape
error when the scalarization `matmul` runs, so the trace stops right
after `betaTo` and `posteriorEval` with no result. -/
theorem mismatch_error_after_posterior (acqf : SUCBL) {α : Type}
    (model : α → ListPosterior) (x : α)
    (hmis : (model x).mean.length ≠ acqf.weights.length) :
    acqf.forwardT model x = ([EvalStep.betaTo, EvalStep.posteriorEval], none) := by
  have hd : dotL (model x).mean acqf.weights = none := by
    simp [dotL, hmis]
  simp [SUCBL.forwardT, hd]

/-- Witness for the amended C4: weights `[1, 2, 3]` against a
two-outcome posterior mean `[0, 0]`. -/
theorem mismatch_error_after_posterior_witness :
    (ListPosterior.mk [0, 0] [[1, 0], [0, 1]]).mean.length ≠
      (SUCBL.mk 2 [1, 2, 3] false).weights.length ∧
    (SUCBL.mk 2 [1, 2, 3] false).forwardT
        (fun _ : Unit => ListPosterior.mk [0, 0] [[1, 0], [0, 1]]) ()
      = ([EvalStep.betaTo, EvalStep.posteriorEval], none) := by
  refine ⟨by simp, ?_⟩
  exact mismatch_error_after_posterior (SUCBL.mk 2 [1, 2, 3] false)
    (fun _ : Unit => ListPosterior.mk [0, 0] [[1, 0], [0, 1]]) () (by simp)
